import Mathlib

/-!
Shallow embedding of the latency-ranking engine of `best-invidious-server`
(`src/app.py`, with the same prober/ranker algorithm in
`src/best-invidious-server.py`).

Modelling conventions:
* A single `ping(server, timeout)` call (ping3 library) is abstracted as a
  value of type `Option ℚ`: `none` stands for a falsy Python return
  (`None` on timeout or `False` on error), `some q` for a float latency `q`.
  Python's truthiness test `if ms:` treats the float `0.0` as falsy, which
  the model captures in `succVal`.
* The sequence of ping calls an `_iter_ping` invocation would perform is a
  function `pings : Nat → Option ℚ` (the outcome of the k-th call).
* `statistics.mean` raises `StatisticsError` on an empty list; that crash is
  the explicit result `IterPingResult.statsError`.
* Floats are modelled as rationals `ℚ`.
-/

namespace BestInvidious

/-- Python truthiness of a ping3 return value: `None`/`False` and the float
`0.0` are falsy, every other float is truthy.  `succVal o = some q` exactly
when the probe counts as a success, carrying the latency appended to
`local_results` (`src/app.py` line 64 `if ms:`). -/
def succVal : Option ℚ → Option ℚ
  | none => none
  | some q => if q = 0 then none else some q

/-- Outcome of one `_iter_ping(server, count, timeout, max_retries)` call
(`src/app.py` lines 56-72).  `noneResult` is Python's `return None`
(skip-list hit, or too many failed probes); `measured m s` is
`return (statistics.mean(local_results), server)`; `statsError` is the
`statistics.StatisticsError` raised by `statistics.mean([])`. -/
inductive IterPingResult where
  | noneResult
  | measured (mean : ℚ) (server : String)
  | statsError
deriving DecidableEq, Repr

/-- The `for _ in range(count)` loop of `_iter_ping` (`src/app.py` lines
60-72).  Arguments: remaining iterations, index of the next ping call,
`local_results`, `down`.  The second component of the result is the number
of ping calls actually performed (instrumentation: `i` counts one per call). -/
def iterPingGo (server : String) (pings : Nat → Option ℚ) (max_retries : Nat) :
    Nat → Nat → List ℚ → Nat → IterPingResult × Nat
  | 0, i, local_results, _ =>
      (if local_results.isEmpty then .statsError
       else .measured (local_results.sum / (local_results.length : ℚ)) server, i)
  | n + 1, i, local_results, down =>
      match succVal (pings i) with
      | some ms => iterPingGo server pings max_retries n (i + 1) (local_results ++ [ms]) down
      | none =>
          if down + 1 > max_retries then (.noneResult, i + 1)
          else iterPingGo server pings max_retries n (i + 1) local_results (down + 1)

/-- `_iter_ping(server, count, timeout, max_retries)` (`src/app.py` lines
56-72; identical loop in `src/best-invidious-server.py` lines 13-25 with
`tolerance` for `max_retries` and no skip list).  The per-probe `timeout`
only parametrises the abstracted `ping` call, hence is absorbed into
`pings`.  Second component: number of ping calls performed (0 when the
server is on the skip list, so no probe is sent). -/
def iter_ping (skip_list : List String) (server : String) (pings : Nat → Option ℚ)
    (count max_retries : Nat) : IterPingResult × Nat :=
  if server ∈ skip_list then (.noneResult, 0)
  else iterPingGo server pings max_retries count 0 [] 0

/-- Number of falsy probes among the `n` ping outcomes starting at index `i`:
the amount by which the loop's `down` counter grows over that window. -/
def failCount (pings : Nat → Option ℚ) : Nat → Nat → Nat
  | _, 0 => 0
  | i, n + 1 =>
      (if (succVal (pings i)).isNone then 1 else 0) + failCount pings (i + 1) n

/-- The successful probes' latencies among the `n` ping outcomes starting at
index `i`, in probe order: the final contents of `local_results` when the
loop runs that whole window. -/
def succList (pings : Nat → Option ℚ) : Nat → Nat → List ℚ
  | _, 0 => []
  | i, n + 1 =>
      match succVal (pings i) with
      | some q => q :: succList pings (i + 1) n
      | none => succList pings (i + 1) n

/-- The order in which Python's `sorted` arranges the `(mean, server)` result
tuples of `_iter_ping` (`src/app.py` line 107): lexicographic tuple
comparison, mean first, tie broken by the server string. -/
def tupLe (a b : ℚ × String) : Prop :=
  a.1 < b.1 ∨ (a.1 = b.1 ∧ a.2 ≤ b.2)

instance : DecidableRel tupLe := fun a b => by
  unfold tupLe; infer_instance

instance : IsTrans (ℚ × String) tupLe where
  trans a b c hab hbc := by
    rcases hab with h1 | ⟨h1, h1s⟩ <;> rcases hbc with h2 | ⟨h2, h2s⟩
    · exact Or.inl (lt_trans h1 h2)
    · exact Or.inl (h2 ▸ h1)
    · exact Or.inl (h1 ▸ h2)
    · exact Or.inr ⟨h1.trans h2, le_trans h1s h2s⟩

instance : IsAntisymm (ℚ × String) tupLe where
  antisymm a b hab hba := by
    rcases hab with h1 | ⟨h1, h1s⟩ <;> rcases hba with h2 | ⟨h2, h2s⟩
    · exact absurd h2 (lt_asymm h1)
    · exact absurd h1 (h2 ▸ lt_irrefl _)
    · exact absurd h2 (h1 ▸ lt_irrefl _)
    · exact Prod.ext h1 (le_antisymm h1s h2s)

instance : IsTotal (ℚ × String) tupLe where
  total a b := by
    rcases lt_trichotomy a.1 b.1 with h | h | h
    · exact Or.inl (Or.inl h)
    · rcases le_total a.2 b.2 with hs | hs
      · exact Or.inl (Or.inr ⟨h, hs⟩)
      · exact Or.inr (Or.inr ⟨h.symm, hs⟩)
    · exact Or.inr (Or.inl h)

/-- One step of building Python's `OrderedDict` from a key/value pair list
(`src/app.py` line 109): a pair whose key is already present overwrites the
value in place (keeping the first-insertion position); a fresh key is
appended. -/
def odInsert (acc : List (String × ℚ)) (kv : String × ℚ) : List (String × ℚ) :=
  if acc.any (fun p => p.1 = kv.1) then
    acc.map (fun p => if p.1 = kv.1 then (p.1, kv.2) else p)
  else acc ++ [kv]

/-- `OrderedDict(pairs)` (`src/app.py` line 109), as the association list it
iterates as. -/
def orderedDict (l : List (String × ℚ)) : List (String × ℚ) :=
  l.foldl odInsert []

/-- The ranking block of `_best_servers` (`src/app.py` lines 107-109):
`results` is the list of `_iter_ping` return values (`None` or
`(mean, server)`) in the order the futures completed;
`[x for x in results if x]` drops the `None`s (a 2-tuple is always truthy);
`sorted` is Python's stable sort under lexicographic tuple comparison —
since that comparison is a total antisymmetric order, the sorted list is
unique, so `List.insertionSort` computes it; `x[::-1]` swaps each tuple to
`(server, mean)`; the f-string prepends `https://`; `OrderedDict` turns the
pair list into the published mapping. -/
def rank (results : List (Option (ℚ × String))) : List (String × ℚ) :=
  orderedDict ((List.insertionSort tupLe (results.filterMap id)).map
    (fun x => ("https://" ++ x.2, x.1)))

/-- The truthiness filter `[x for x in results if x]` applied to one
`_iter_ping` outcome: `None` is dropped, a `(mean, server)` tuple is kept.
(`statsError` never reaches this filter — the exception propagates out of
`future.result()` first; see `best_servers_core`.) -/
def toOpt : IterPingResult → Option (ℚ × String)
  | .noneResult => none
  | .measured m s => some (m, s)
  | .statsError => none

/-- The fan-out of `_best_servers` (`src/app.py` lines 99-109): one
`_iter_ping` call per candidate, with `pingsFor i` the ping outcomes seen by
the i-th candidate's invocation.  The futures' results are collected here in
dispatch order (completion order is a permutation of this; `rank` is proved
insensitive to it).  If any invocation raised `StatisticsError`,
`future.result()` re-raises it and the whole refresh dies: result
`Except.error ()`.  Otherwise the sorted, deduplicated ranking is built. -/
def best_servers_core (skip_list : List String) (candidates : List String)
    (pingsFor : Nat → Nat → Option ℚ) (count max_retries : Nat) :
    Except Unit (List (String × ℚ)) :=
  let rs := (List.range candidates.length).map
    (fun i => (iter_ping skip_list (candidates.getD i "") (pingsFor i) count max_retries).1)
  if rs.any (fun r => r = .statsError) then .error ()
  else .ok (rank (rs.map toOpt))

/-- The value of `runner._best_servers` as the request handlers see it
(`src/app.py` lines 40-53, 184).  The runner is constructed with the string
`'Warming up... Try again in a minute...'`; only a completed background
refresh replaces it with the dict loaded from `.cache.json`. -/
inductive RunnerBest where
  | warming (msg : String)
  | published (d : List (String × ℚ))
deriving DecidableEq, Repr

/-- What the `best_server` route handler produces (`src/app.py` lines
140-158), for a plain `GET /` (no `watch`/`channel` sub-path, default
`redirect=True`).  `attrError` models the `AttributeError` raised when
`runner._best_servers` is still the warming-up string and `.items()` is
called on it; `indexError` models the `IndexError` raised by `[...][0]` on
an empty list comprehension (empty published dict). -/
inductive HandlerResult where
  | redirect (url : String)
  | attrError
  | indexError
deriving DecidableEq, Repr

/-- Smallest element of a nonempty value list, as Python's `min`. -/
def pyMin (q : ℚ) (qs : List ℚ) : ℚ := qs.foldl min q

/-- The `best_server` handler (`src/app.py` lines 143-158) on a plain
`GET /`:
`_best_servers = runner._best_servers` — on the warming-up string,
`_best_servers.items()` raises `AttributeError`;
`[k for k, v in d.items() if v == min(d.values())][0]` — on an empty dict
the comprehension iterates zero times (so `min` is never called) and `[0]`
raises `IndexError`; otherwise the first key attaining the minimum value is
returned as a redirect. -/
def best_server (st : RunnerBest) : HandlerResult :=
  match st with
  | .warming _ => .attrError
  | .published d =>
      match d.map Prod.snd with
      | [] => .indexError
      | q :: qs =>
          match (d.filter (fun p => p.2 = pyMin q qs)).map Prod.fst with
          | [] => .indexError
          | k :: _ => .redirect k

/-- State shared between the background refresh task and the request
handlers: the contents of `.cache.json` (if the file exists),
`runner._best_servers`, and whether the background task is still running
(an uncaught exception inside `run_bg_task` terminates the task — the
`while True` loop is gone, though request serving continues). -/
structure SchedState where
  cacheFile : Option (List (String × ℚ))
  best : RunnerBest
  taskAlive : Bool
deriving DecidableEq, Repr

/-- Process state at startup (`src/app.py` line 184): no cache file yet,
`runner._best_servers` is the warming-up string, background task running. -/
def initState : SchedState :=
  ⟨none, .warming "Warming up... Try again in a minute...", true⟩

/-- One iteration of `run_bg_task`'s `while True` loop (`src/app.py` lines
45-53).  `fetch` abstracts the outcome of the `_best_servers()` call:
`.ok ranking` is a successful refresh (which writes `ranking` to
`.cache.json` and is then loaded into `self._best_servers`);
`.error ()` is an exception from the Endpoint Source fetch
(`urllib.request.urlopen`, `src/app.py` line 82), raised before the cache
file is touched.  There is no `try`/`except`: the exception escapes
`run_bg_task`, killing the task; a dead task performs no further cycles. -/
def run_bg_cycle (st : SchedState) (fetch : Except Unit (List (String × ℚ))) :
    SchedState :=
  if st.taskAlive then
    match fetch with
    | .error _ => { st with taskAlive := false }
    | .ok ranking => ⟨some ranking, .published ranking, true⟩
  else st

/-- A sequence of scheduled refresh cycles (one per hour in the source). -/
def run_bg_cycles (st : SchedState) (fs : List (Except Unit (List (String × ℚ)))) :
    SchedState :=
  fs.foldl run_bg_cycle st

/-- The full argument tuple of a `_best_servers` call (`src/app.py` lines
75-78). -/
structure BestServersArgs where
  count : Nat
  max_retries : Nat
  timeout : ℚ
  return_markdown : Bool
deriving DecidableEq, Repr

/-- The defaults of `_best_servers` (`src/app.py` lines 75-78):
`count=10, max_retries=1, timeout=0.2, return_markdown=False`. -/
def bestServersDefaults : BestServersArgs :=
  ⟨10, 1, 1 / 5, false⟩

/-- The `/best_servers` route handler (`src/app.py` lines 161-174), viewed
as the argument tuple of the `_best_servers` refresh call it triggers
(`none` when no refresh happens, i.e. the JSON branch that just reads the
cache file).  The source calls `_best_servers(return_markdown=True)`,
passing none of the request-supplied `count`, `max_retries`, `timeout`, so
the refresh runs with the defaults. -/
def best_servers_route (count max_retries : Nat) (timeout : ℚ)
    (return_markdown : Bool) : Option BestServersArgs :=
  if return_markdown then
    some { bestServersDefaults with return_markdown := true }
  else none

/-! ## Helper lemmas about the prober loop -/

theorem succVal_eq_some {o : Option ℚ} {q : ℚ} (h : succVal o = some q) :
    o = some q ∧ q ≠ 0 := by
  cases o with
  | none => simp [succVal] at h
  | some r =>
      by_cases hr : r = 0
      · simp [succVal, hr] at h
      · rw [succVal, if_neg hr, Option.some.injEq] at h
        exact ⟨by rw [h], h ▸ hr⟩

/-- Once the running failure tally would exceed `max_retries` within the
first `j` remaining probes, the loop returns `None` having performed at
most `j` more ping calls. -/
theorem iterPingGo_abort (server : String) (pings : Nat → Option ℚ) (max_retries : Nat)
    (n j i down : Nat) (acc : List ℚ) (hdown : down ≤ max_retries) (hj : j ≤ n)
    (hfail : max_retries < down + failCount pings i j) :
    (iterPingGo server pings max_retries n i acc down).1 = .noneResult ∧
    (iterPingGo server pings max_retries n i acc down).2 ≤ i + j := by
  induction n generalizing j i down acc with
  | zero =>
      have hj0 : j = 0 := Nat.le_zero.mp hj
      subst hj0
      simp [failCount] at hfail
      omega
  | succ n ih =>
      cases j with
      | zero =>
          simp [failCount] at hfail
          omega
      | succ j =>
          cases hsv : succVal (pings i) with
          | some q =>
              have hf : failCount pings i (j + 1) = failCount pings (i + 1) j := by
                simp [failCount, hsv]
              rw [hf] at hfail
              have hstep : iterPingGo server pings max_retries (n + 1) i acc down =
                  iterPingGo server pings max_retries n (i + 1) (acc ++ [q]) down := by
                simp [iterPingGo, hsv]
              have h := ih j (i + 1) down (acc ++ [q]) hdown
                (Nat.le_of_succ_le_succ hj) hfail
              rw [hstep]
              exact ⟨h.1, h.2.trans (by omega)⟩
          | none =>
              have hf : failCount pings i (j + 1) = 1 + failCount pings (i + 1) j := by
                simp [failCount, hsv]
              rw [hf] at hfail
              by_cases hd : down + 1 > max_retries
              · have hstep : iterPingGo server pings max_retries (n + 1) i acc down =
                    (.noneResult, i + 1) := by
                  simp [iterPingGo, hsv, hd]
                rw [hstep]
                exact ⟨rfl, by omega⟩
              · have hstep : iterPingGo server pings max_retries (n + 1) i acc down =
                    iterPingGo server pings max_retries n (i + 1) acc (down + 1) := by
                  simp [iterPingGo, hsv, hd]
                rw [hstep]
                have h := ih j (i + 1) (down + 1) acc (by omega)
                  (Nat.le_of_succ_le_succ hj) (by omega)
                exact ⟨h.1, h.2.trans (by omega)⟩

/-- When the failure tally over the whole remaining window stays within
`max_retries`, the loop runs to completion, `local_results` ends up as
`acc ++ succList`, and `statistics.mean` is applied to it (raising on an
empty list). -/
theorem iterPingGo_complete (server : String) (pings : Nat → Option ℚ) (max_retries : Nat)
    (n i down : Nat) (acc : List ℚ)
    (h : down + failCount pings i n ≤ max_retries) :
    iterPingGo server pings max_retries n i acc down =
      (if (acc ++ succList pings i n).isEmpty then .statsError
       else .measured ((acc ++ succList pings i n).sum /
         ((acc ++ succList pings i n).length : ℚ)) server, i + n) := by
  induction n generalizing i down acc with
  | zero => simp [iterPingGo, succList]
  | succ n ih =>
      cases hsv : succVal (pings i) with
      | some q =>
          have hf : failCount pings i (n + 1) = failCount pings (i + 1) n := by
            simp [failCount, hsv]
          have hstep : iterPingGo server pings max_retries (n + 1) i acc down =
              iterPingGo server pings max_retries n (i + 1) (acc ++ [q]) down := by
            simp [iterPingGo, hsv]
          rw [hstep, ih (i + 1) down (acc ++ [q]) (by rw [hf] at h; exact h)]
          have hsl : succList pings i (n + 1) = q :: succList pings (i + 1) n := by
            simp [succList, hsv]
          rw [hsl]
          have hl : acc ++ q :: succList pings (i + 1) n =
              (acc ++ [q]) ++ succList pings (i + 1) n := by simp
          rw [hl]
          have hn : i + (n + 1) = (i + 1) + n := by omega
          rw [hn]
      | none =>
          have hf : failCount pings i (n + 1) = 1 + failCount pings (i + 1) n := by
            simp [failCount, hsv]
          have hd : ¬ down + 1 > max_retries := by rw [hf] at h; omega
          have hstep : iterPingGo server pings max_retries (n + 1) i acc down =
              iterPingGo server pings max_retries n (i + 1) acc (down + 1) := by
            simp [iterPingGo, hsv, hd]
          rw [hstep, ih (i + 1) (down + 1) acc (by rw [hf] at h; omega)]
          have hsl : succList pings i (n + 1) = succList pings (i + 1) n := by
            simp [succList, hsv]
          rw [hsl]
          have hn : i + (n + 1) = (i + 1) + n := by omega
          rw [hn]

/-- The loop inspects each ping outcome only through its truthiness value. -/
theorem iterPingGo_congr (server : String) (p p2 : Nat → Option ℚ) (max_retries : Nat)
    (hp : ∀ k, succVal (p k) = succVal (p2 k)) (n i down : Nat) (acc : List ℚ) :
    iterPingGo server p max_retries n i acc down =
      iterPingGo server p2 max_retries n i acc down := by
  induction n generalizing i down acc with
  | zero => simp [iterPingGo]
  | succ n ih =>
      cases hsv : succVal (p i) with
      | some q =>
          have hsv2 : succVal (p2 i) = some q := (hp i).symm.trans hsv
          have e1 : iterPingGo server p max_retries (n + 1) i acc down =
              iterPingGo server p max_retries n (i + 1) (acc ++ [q]) down := by
            simp [iterPingGo, hsv]
          have e2 : iterPingGo server p2 max_retries (n + 1) i acc down =
              iterPingGo server p2 max_retries n (i + 1) (acc ++ [q]) down := by
            simp [iterPingGo, hsv2]
          rw [e1, e2, ih]
      | none =>
          have hsv2 : succVal (p2 i) = none := (hp i).symm.trans hsv
          by_cases hd : down + 1 > max_retries
          · have e1 : iterPingGo server p max_retries (n + 1) i acc down =
                (.noneResult, i + 1) := by simp [iterPingGo, hsv, hd]
            have e2 : iterPingGo server p2 max_retries (n + 1) i acc down =
                (.noneResult, i + 1) := by simp [iterPingGo, hsv2, hd]
            rw [e1, e2]
          · have e1 : iterPingGo server p max_retries (n + 1) i acc down =
                iterPingGo server p max_retries n (i + 1) acc (down + 1) := by
              simp [iterPingGo, hsv, hd]
            have e2 : iterPingGo server p2 max_retries (n + 1) i acc down =
                iterPingGo server p2 max_retries n (i + 1) acc (down + 1) := by
              simp [iterPingGo, hsv2, hd]
            rw [e1, e2, ih]

/-- A `measured` outcome always carries the server the loop was started
with. -/
theorem iterPingGo_measured_server (server : String) (pings : Nat → Option ℚ)
    (max_retries n i down : Nat) (acc : List ℚ) (m : ℚ) (s : String)
    (h : (iterPingGo server pings max_retries n i acc down).1 = .measured m s) :
    s = server := by
  induction n generalizing i down acc with
  | zero =>
      by_cases he : acc.isEmpty
      · simp [iterPingGo, he] at h
      · simp [iterPingGo, he] at h
        exact h.2.symm
  | succ n ih =>
      cases hsv : succVal (pings i) with
      | some q =>
          have hstep : iterPingGo server pings max_retries (n + 1) i acc down =
              iterPingGo server pings max_retries n (i + 1) (acc ++ [q]) down := by
            simp [iterPingGo, hsv]
          rw [hstep] at h
          exact ih (i + 1) down (acc ++ [q]) h
      | none =>
          by_cases hd : down + 1 > max_retries
          · have hstep : iterPingGo server pings max_retries (n + 1) i acc down =
                (.noneResult, i + 1) := by simp [iterPingGo, hsv, hd]
            rw [hstep] at h
            simp at h
          · have hstep : iterPingGo server pings max_retries (n + 1) i acc down =
                iterPingGo server pings max_retries n (i + 1) acc (down + 1) := by
              simp [iterPingGo, hsv, hd]
            rw [hstep] at h
            exact ih (i + 1) (down + 1) acc h

/-- With nonnegative ping latencies, a `measured` mean is strictly
positive: only nonzero (hence strictly positive) latencies ever enter
`local_results`. -/
theorem iterPingGo_measured_pos (server : String) (pings : Nat → Option ℚ)
    (max_retries : Nat) (hnn : ∀ k q, pings k = some q → 0 ≤ q)
    (n i down : Nat) (acc : List ℚ) (hacc : ∀ q ∈ acc, 0 < q) (m : ℚ) (s : String)
    (h : (iterPingGo server pings max_retries n i acc down).1 = .measured m s) :
    0 < m := by
  induction n generalizing i down acc with
  | zero =>
      by_cases he : acc.isEmpty
      · simp [iterPingGo, he] at h
      · simp [iterPingGo, he] at h
        have hne : acc ≠ [] := by simpa [List.isEmpty_iff] using he
        have hsum : 0 < acc.sum := List.sum_pos acc hacc hne
        have hlen : 0 < (acc.length : ℚ) := by
          exact_mod_cast List.length_pos.mpr hne
        rw [← h.1]
        exact div_pos hsum hlen
  | succ n ih =>
      cases hsv : succVal (pings i) with
      | some q =>
          obtain ⟨hpq, hq0⟩ := succVal_eq_some hsv
          have hqpos : 0 < q := lt_of_le_of_ne (hnn i q hpq) (Ne.symm hq0)
          have hstep : iterPingGo server pings max_retries (n + 1) i acc down =
              iterPingGo server pings max_retries n (i + 1) (acc ++ [q]) down := by
            simp [iterPingGo, hsv]
          rw [hstep] at h
          refine ih (i + 1) down (acc ++ [q]) ?_ h
          intro x hx
          rcases List.mem_append.mp hx with hx | hx
          · exact hacc x hx
          · rw [List.mem_singleton.mp hx]
            exact hqpos
      | none =>
          by_cases hd : down + 1 > max_retries
          · have hstep : iterPingGo server pings max_retries (n + 1) i acc down =
                (.noneResult, i + 1) := by simp [iterPingGo, hsv, hd]
            rw [hstep] at h
            simp at h
          · have hstep : iterPingGo server pings max_retries (n + 1) i acc down =
                iterPingGo server pings max_retries n (i + 1) acc (down + 1) := by
              simp [iterPingGo, hsv, hd]
            rw [hstep] at h
            exact ih (i + 1) (down + 1) acc hacc h

/-- Replacing every zero-latency probe outcome by `None` leaves the probe
loop's behaviour unchanged: a reported latency of exactly `0` is handled as
a failure (truthiness of `0.0`). -/
theorem succVal_zero_mask (o : Option ℚ) :
    succVal o = succVal (if o = some 0 then none else o) := by
  by_cases h : o = some 0
  · simp [h, succVal]
  · simp [h]

/-! ## Helper lemmas about the ranker -/

instance : DecidableEq (Except Unit (List (String × ℚ)))
  | .error e1, .error e2 => isTrue (by cases e1; cases e2; rfl)
  | .ok x, .ok y =>
      if h : x = y then isTrue (by rw [h])
      else isFalse (fun hc => h (by injection hc))
  | .error _, .ok _ => isFalse (fun hc => Except.noConfusion hc)
  | .ok _, .error _ => isFalse (fun hc => Except.noConfusion hc)

theorem https_append_cancel {a b : String} (h : "https://" ++ a = "https://" ++ b) :
    a = b := by
  have hd := congrArg String.data h
  rw [String.data_append, String.data_append] at hd
  exact String.ext (List.append_cancel_left hd)

theorem odInsert_key_mem (acc : List (String × ℚ)) (kv : String × ℚ) (k : String)
    (h : k ∈ (odInsert acc kv).map Prod.fst) :
    k ∈ acc.map Prod.fst ∨ k = kv.1 := by
  unfold odInsert at h
  by_cases hc : acc.any (fun p => p.1 = kv.1)
  · rw [if_pos hc, List.map_map] at h
    rcases List.mem_map.mp h with ⟨p, hp, hv⟩
    by_cases hk : p.1 = kv.1
    · right
      simp [hk] at hv
      exact hv.symm
    · left
      simp [hk] at hv
      exact hv ▸ List.mem_map_of_mem Prod.fst hp
  · rw [if_neg hc, List.map_append] at h
    rcases List.mem_append.mp h with h | h
    · exact Or.inl h
    · right
      simpa using h

theorem odInsert_val_mem (acc : List (String × ℚ)) (kv : String × ℚ) (v : ℚ)
    (h : v ∈ (odInsert acc kv).map Prod.snd) :
    v ∈ acc.map Prod.snd ∨ v = kv.2 := by
  unfold odInsert at h
  by_cases hc : acc.any (fun p => p.1 = kv.1)
  · rw [if_pos hc, List.map_map] at h
    rcases List.mem_map.mp h with ⟨p, hp, hv⟩
    by_cases hk : p.1 = kv.1
    · right
      simp [hk] at hv
      exact hv.symm
    · left
      simp [hk] at hv
      exact hv ▸ List.mem_map_of_mem Prod.snd hp
  · rw [if_neg hc, List.map_append] at h
    rcases List.mem_append.mp h with h | h
    · exact Or.inl h
    · right
      simpa using h

theorem foldl_odInsert_key_mem (l : List (String × ℚ)) :
    ∀ (acc : List (String × ℚ)) (k : String),
      k ∈ (List.foldl odInsert acc l).map Prod.fst →
      k ∈ acc.map Prod.fst ∨ k ∈ l.map Prod.fst := by
  induction l with
  | nil =>
      intro acc k h
      exact Or.inl h
  | cons kv l ih =>
      intro acc k h
      rw [List.foldl_cons] at h
      rcases ih (odInsert acc kv) k h with h | h
      · rcases odInsert_key_mem acc kv k h with h | h
        · exact Or.inl h
        · right
          simp [h]
      · right
        rw [List.map_cons]
        exact List.mem_cons_of_mem _ h

theorem foldl_odInsert_val_mem (l : List (String × ℚ)) :
    ∀ (acc : List (String × ℚ)) (v : ℚ),
      v ∈ (List.foldl odInsert acc l).map Prod.snd →
      v ∈ acc.map Prod.snd ∨ v ∈ l.map Prod.snd := by
  induction l with
  | nil =>
      intro acc v h
      exact Or.inl h
  | cons kv l ih =>
      intro acc v h
      rw [List.foldl_cons] at h
      rcases ih (odInsert acc kv) v h with h | h
      · rcases odInsert_val_mem acc kv v h with h | h
        · exact Or.inl h
        · right
          simp [h]
      · right
        rw [List.map_cons]
        exact List.mem_cons_of_mem _ h

/-- Every key of the ranking comes from a collected `(mean, server)` tuple,
prefixed with `https://`. -/
theorem rank_key_mem (results : List (Option (ℚ × String))) (k : String)
    (h : k ∈ (rank results).map Prod.fst) :
    ∃ x ∈ results.filterMap id, k = "https://" ++ x.2 := by
  unfold rank orderedDict at h
  rcases foldl_odInsert_key_mem _ [] k h with h | h
  · simp at h
  · rw [List.map_map] at h
    rcases List.mem_map.mp h with ⟨x, hx, hk⟩
    exact ⟨x, (List.perm_insertionSort tupLe _).subset hx, hk.symm⟩

/-- Every value of the ranking is the mean of a collected tuple. -/
theorem rank_val_mem (results : List (Option (ℚ × String))) (p : String × ℚ)
    (h : p ∈ rank results) :
    ∃ x ∈ results.filterMap id, p.2 = x.1 := by
  have hv : p.2 ∈ (rank results).map Prod.snd := List.mem_map_of_mem Prod.snd h
  unfold rank orderedDict at hv
  rcases foldl_odInsert_val_mem _ [] p.2 hv with hv | hv
  · simp at hv
  · rw [List.map_map] at hv
    rcases List.mem_map.mp hv with ⟨x, hx, hk⟩
    exact ⟨x, (List.perm_insertionSort tupLe _).subset hx, hk.symm⟩

/-- When no key occurs twice, `OrderedDict` construction is a plain copy of
the pair list. -/
theorem foldl_odInsert_eq_of_nodup (l : List (String × ℚ)) :
    ∀ acc : List (String × ℚ), ((acc ++ l).map Prod.fst).Nodup →
      List.foldl odInsert acc l = acc ++ l := by
  induction l with
  | nil =>
      intro acc _
      simp
  | cons kv l ih =>
      intro acc h
      have hmem : kv.1 ∉ acc.map Prod.fst := by
        rw [List.map_append] at h
        rcases List.nodup_append.mp h with ⟨_, _, hdisj⟩
        intro hk
        exact hdisj hk (by simp)
      have hkey : acc.any (fun p => p.1 = kv.1) = false := by
        rw [List.any_eq_false]
        intro p hp
        simp only [decide_eq_true_eq]
        intro hpk
        exact hmem (hpk ▸ List.mem_map_of_mem Prod.fst hp)
      have hins : odInsert acc kv = acc ++ [kv] := by
        unfold odInsert
        rw [if_neg (by simp [hkey])]
      rw [List.foldl_cons, hins, ih (acc ++ [kv]) (by simpa using h)]
      simp

/-! ## Claim theorems -/

/-- C1: when all `probe_count` probes fail but the failure tally never
exceeds `max_consecutive_failures` (here `count = 1`, `max_retries = 1`,
every ping falsy), the spec requires the result to be `Skipped` without a
crash; the code instead reaches `statistics.mean(local_results)` with
`local_results == []`, which raises `StatisticsError`.  The theorem
evaluates the embedded `_iter_ping` at that failing input and exhibits the
crash. -/
theorem iter_ping_all_fail_statsError :
    iter_ping [] "example.com" (fun _ => none) 1 1 = (.statsError, 1) := by decide

/-- C2: a call to the `best_server` handler before the first successful
publish finds `runner._best_servers` equal to the warming-up string, and
`.items()` on a `str` raises `AttributeError` (an HTTP 500), not a
"warming up, retry shortly" response; with a published empty ranking the
`[...][0]` comprehension indexing raises `IndexError`.  Both evaluations
exhibit the hard failure the claim says cannot happen. -/
theorem best_server_warming_crashes :
    best_server (.warming "Warming up... Try again in a minute...") = .attrError ∧
    best_server (.published []) = .indexError :=
  ⟨rfl, rfl⟩

/-- C5: the failure counter accumulates across the whole run (a success
never resets it); whenever the tally within the first `j ≤ count` probes
exceeds `max_retries`, the prober returns `None` (`Skipped`, never a
partial mean) and performs at most `j` ping calls — so any successes that
would have followed are never observed. -/
theorem iter_ping_failures_exceed_skipped (skip_list : List String) (server : String)
    (pings : Nat → Option ℚ) (count max_retries j : Nat)
    (hj : j ≤ count) (hfail : max_retries < failCount pings 0 j) :
    (iter_ping skip_list server pings count max_retries).1 = .noneResult ∧
    (iter_ping skip_list server pings count max_retries).2 ≤ j := by
  unfold iter_ping
  by_cases hmem : server ∈ skip_list
  · rw [if_pos hmem]
    exact ⟨rfl, Nat.zero_le _⟩
  · rw [if_neg hmem]
    have h := iterPingGo_abort server pings max_retries count j 0 0 []
      (Nat.zero_le _) hj (by omega)
    exact ⟨h.1, by omega⟩

theorem iter_ping_failures_exceed_skipped_witness :
    1 ≤ 2 ∧ 0 < failCount (fun _ => (none : Option ℚ)) 0 1 ∧
    (iter_ping [] "a" (fun _ => none) 2 0).1 = .noneResult ∧
    (iter_ping [] "a" (fun _ => none) 2 0).2 ≤ 1 :=
  ⟨by decide, by decide,
    (iter_ping_failures_exceed_skipped [] "a" (fun _ => none) 2 0 1
      (by decide) (by decide)).1,
    (iter_ping_failures_exceed_skipped [] "a" (fun _ => none) 2 0 1
      (by decide) (by decide)).2⟩

/-- C6: if the loop completes all `count` iterations without the failure
tally exceeding `max_retries` and at least one probe succeeded, the result
is `measured` with mean exactly the arithmetic mean of the successful
probes' latencies. -/
theorem iter_ping_complete_measured_mean (skip_list : List String) (server : String)
    (pings : Nat → Option ℚ) (count max_retries : Nat)
    (hmem : server ∉ skip_list)
    (hfail : failCount pings 0 count ≤ max_retries)
    (hsucc : succList pings 0 count ≠ []) :
    (iter_ping skip_list server pings count max_retries).1 =
      .measured ((succList pings 0 count).sum /
        ((succList pings 0 count).length : ℚ)) server := by
  unfold iter_ping
  rw [if_neg hmem]
  rw [iterPingGo_complete server pings max_retries count 0 0 [] (by omega)]
  have he : (([] : List ℚ) ++ succList pings 0 count).isEmpty = false := by
    simpa [List.isEmpty_iff] using hsucc
  simp [he, hsucc]

theorem iter_ping_complete_measured_mean_witness :
    ("a" ∉ ([] : List String)) ∧
    failCount (fun i => if i = 0 then none else some 1) 0 2 ≤ 1 ∧
    succList (fun i => if i = 0 then none else some 1) 0 2 ≠ [] ∧
    (iter_ping [] "a" (fun i => if i = 0 then none else some 1) 2 1).1 =
      .measured ((succList (fun i => if i = 0 then none else some 1) 0 2).sum /
        ((succList (fun i => if i = 0 then none else some 1) 0 2).length : ℚ)) "a" :=
  ⟨by decide, by decide, by decide,
    iter_ping_complete_measured_mean [] "a"
      (fun i => if i = 0 then none else some 1) 2 1
      (by decide) (by decide) (by decide)⟩

/-- C9: the `/best_servers` route with a manual refresh
(`return_markdown=true`) and request-supplied overrides
(`count=3, max_retries=2, timeout=1`) triggers
`_best_servers(return_markdown=True)` — the refresh runs with the default
probe parameters `count=10, max_retries=1, timeout=0.2`, not the supplied
ones. -/
theorem best_servers_route_ignores_overrides :
    best_servers_route 3 2 1 true = some ⟨10, 1, 1 / 5, true⟩ ∧
    best_servers_route 3 2 1 true ≠ some ⟨3, 2, 1, true⟩ := by
  constructor
  · rfl
  · intro h
    simp [best_servers_route, bestServersDefaults] at h

/-- C3 (counterexample): with a duplicated candidate probed twice with
different means — results `(1, a)`, `(3, a)`, `(2, b)` — Python sorts to
`[(1,a), (2,b), (3,a)]` and `OrderedDict` keeps `a`'s first position but
its last value, yielding `[(https://a, 3), (https://b, 2)]`: not sorted
ascending by `mean_latency`.  So the claim as stated (over every candidate
list and outcome assignment) is false. -/
theorem rank_duplicate_unsorted_cex :
    ¬ List.Sorted (fun p q : String × ℚ => p.2 ≤ q.2)
      (rank [some (1, "a"), some (3, "a"), some (2, "b")]) := by decide

/-- C3 (amended): provided the measured results carry pairwise-distinct
endpoints (no candidate probed twice), the Ranking is sorted ascending by
`mean_latency`, contains no duplicate endpoints, and contains only
`Measured` results (each entry is the `https://`-prefixed server and mean
of a collected tuple). -/
theorem rank_sorted_nodup_measured (results : List (Option (ℚ × String)))
    (hnd : ((results.filterMap id).map Prod.snd).Nodup) :
    List.Sorted (fun p q : String × ℚ => p.2 ≤ q.2) (rank results) ∧
    ((rank results).map Prod.fst).Nodup ∧
    ∀ p ∈ rank results, ∃ x ∈ results.filterMap id, p = ("https://" ++ x.2, x.1) := by
  have hinj : Function.Injective (fun s : String => "https://" ++ s) :=
    fun _ _ h => https_append_cancel h
  have hperm : (List.insertionSort tupLe (results.filterMap id)).Perm
      (results.filterMap id) := List.perm_insertionSort tupLe _
  have hndk : ((List.insertionSort tupLe (results.filterMap id)).map
      (fun x => "https://" ++ x.2 : ℚ × String → String)).Nodup := by
    have h1 : ((List.insertionSort tupLe (results.filterMap id)).map Prod.snd).Nodup :=
      ((hperm.map Prod.snd).nodup_iff).mpr hnd
    have h2 := h1.map hinj
    rw [List.map_map] at h2
    exact h2
  have hkeys : ((List.insertionSort tupLe (results.filterMap id)).map
      (fun x : ℚ × String => ("https://" ++ x.2, x.1))).map Prod.fst =
      (List.insertionSort tupLe (results.filterMap id)).map
        (fun x => "https://" ++ x.2) := by
    rw [List.map_map]
    rfl
  have hod : orderedDict ((List.insertionSort tupLe (results.filterMap id)).map
      (fun x : ℚ × String => ("https://" ++ x.2, x.1))) =
      (List.insertionSort tupLe (results.filterMap id)).map
        (fun x : ℚ × String => ("https://" ++ x.2, x.1)) := by
    unfold orderedDict
    have h := foldl_odInsert_eq_of_nodup
      ((List.insertionSort tupLe (results.filterMap id)).map
        (fun x : ℚ × String => ("https://" ++ x.2, x.1))) []
      (by rw [List.nil_append, hkeys]; exact hndk)
    simpa using h
  have hrank : rank results = (List.insertionSort tupLe (results.filterMap id)).map
      (fun x : ℚ × String => ("https://" ++ x.2, x.1)) := by
    unfold rank
    exact hod
  refine ⟨?_, ?_, ?_⟩
  · rw [hrank]
    refine (List.sorted_insertionSort tupLe (results.filterMap id)).map
      (fun x : ℚ × String => ("https://" ++ x.2, x.1)) ?_
    intro a b hab
    rcases hab with h | ⟨h, _⟩
    · exact le_of_lt h
    · exact le_of_eq h
  · rw [hrank, hkeys]
    exact hndk
  · intro p hp
    rw [hrank] at hp
    rcases List.mem_map.mp hp with ⟨x, hx, hxe⟩
    exact ⟨x, hperm.subset hx, hxe.symm⟩

theorem rank_sorted_nodup_measured_witness :
    ((([some ((2 : ℚ), "b"), some ((1 : ℚ), "a"), none] :
        List (Option (ℚ × String))).filterMap id).map Prod.snd).Nodup ∧
    (List.Sorted (fun p q : String × ℚ => p.2 ≤ q.2)
        (rank [some (2, "b"), some (1, "a"), none]) ∧
      ((rank [some (2, "b"), some (1, "a"), none]).map Prod.fst).Nodup ∧
      ∀ p ∈ rank [some (2, "b"), some (1, "a"), none],
        ∃ x ∈ ([some ((2 : ℚ), "b"), some ((1 : ℚ), "a"), none] :
          List (Option (ℚ × String))).filterMap id, p = ("https://" ++ x.2, x.1)) :=
  ⟨by decide, rank_sorted_nodup_measured _ (by decide)⟩

/-- C4: the Ranking is a function of the multiset of collected
`(mean, server)` results only — any permutation of the collection order
(in particular any completion order of the concurrent probes) produces the
identical Ranking. -/
theorem rank_perm_invariant (results1 results2 : List (Option (ℚ × String)))
    (h : results1.Perm results2) : rank results1 = rank results2 := by
  unfold rank
  have hperm : (results1.filterMap id).Perm (results2.filterMap id) := h.filterMap id
  have hp : (List.insertionSort tupLe (results1.filterMap id)).Perm
      (List.insertionSort tupLe (results2.filterMap id)) :=
    (List.perm_insertionSort tupLe _).trans
      (hperm.trans (List.perm_insertionSort tupLe _).symm)
  have heq : List.insertionSort tupLe (results1.filterMap id) =
      List.insertionSort tupLe (results2.filterMap id) :=
    List.eq_of_perm_of_sorted hp (List.sorted_insertionSort tupLe _)
      (List.sorted_insertionSort tupLe _)
  rw [heq]

theorem rank_perm_invariant_witness :
    ([some ((1 : ℚ), "a"), none] : List (Option (ℚ × String))).Perm
      [none, some (1, "a")] ∧
    rank [some (1, "a"), none] = rank [none, some (1, "a")] :=
  ⟨by decide, rank_perm_invariant _ _ (by decide)⟩

/-- C7: an endpoint on the skip list gets zero ping calls (its `_iter_ping`
invocation returns `None` immediately) and its `https://`-prefixed
identifier never appears in a successfully produced Ranking, whatever the
candidate list. -/
theorem iter_ping_skip_list_excluded (skip_list candidates : List String)
    (pingsFor : Nat → Nat → Option ℚ) (count max_retries : Nat)
    (server : String) (pings : Nat → Option ℚ) (ranking : List (String × ℚ))
    (hmem : server ∈ skip_list)
    (hok : best_servers_core skip_list candidates pingsFor count max_retries =
      .ok ranking) :
    iter_ping skip_list server pings count max_retries = (.noneResult, 0) ∧
    ("https://" ++ server) ∉ ranking.map Prod.fst := by
  constructor
  · unfold iter_ping
    rw [if_pos hmem]
  · intro hk
    unfold best_servers_core at hok
    by_cases hcrash : ((List.range candidates.length).map
        (fun i => (iter_ping skip_list (candidates.getD i "") (pingsFor i)
          count max_retries).1)).any (fun r => r = .statsError)
    · rw [if_pos hcrash] at hok
      exact absurd hok (by simp)
    · rw [if_neg hcrash] at hok
      rw [Except.ok.injEq] at hok
      rw [← hok] at hk
      rcases rank_key_mem _ _ hk with ⟨x, hx, hke⟩
      rcases List.mem_filterMap.mp hx with ⟨a, ha, hax⟩
      rcases List.mem_map.mp ha with ⟨r, hr, hra⟩
      rcases List.mem_map.mp hr with ⟨i, _, hri⟩
      have hx2 : x.2 = server := (https_append_cancel hke).symm
      simp only [id_eq] at hax
      rw [hax] at hra
      have hrm : r = .measured x.1 x.2 := by
        cases r with
        | noneResult => simp [toOpt] at hra
        | statsError => simp [toOpt] at hra
        | measured m s =>
            simp only [toOpt, Option.some.injEq] at hra
            rw [← hra]
      by_cases hc : candidates.getD i "" ∈ skip_list
      · rw [← hri] at hrm
        unfold iter_ping at hrm
        rw [if_pos hc] at hrm
        simp at hrm
      · rw [← hri] at hrm
        unfold iter_ping at hrm
        rw [if_neg hc] at hrm
        have hs := iterPingGo_measured_server (candidates.getD i "") (pingsFor i)
          max_retries count 0 0 [] x.1 x.2 hrm
        rw [hx2] at hs
        exact hc (hs ▸ hmem)

theorem iter_ping_skip_list_excluded_witness :
    "x" ∈ ["x"] ∧
    best_servers_core ["x"] ["x", "y"] (fun _ _ => some 1) 1 0 =
      .ok [("https://y", ([(1 : ℚ)]).sum / (([(1 : ℚ)]).length : ℚ))] ∧
    iter_ping ["x"] "x" (fun _ => some 1) 1 0 = (.noneResult, 0) ∧
    ("https://" ++ "x") ∉
      ([("https://y", ([(1 : ℚ)]).sum / (([(1 : ℚ)]).length : ℚ))].map Prod.fst) :=
  ⟨by decide, by rfl,
    (iter_ping_skip_list_excluded ["x"] ["x", "y"] (fun _ _ => some 1) 1 0 "x"
      (fun _ => some 1) [("https://y", ([(1 : ℚ)]).sum / (([(1 : ℚ)]).length : ℚ))]
      (by decide) (by rfl)).1,
    (iter_ping_skip_list_excluded ["x"] ["x", "y"] (fun _ _ => some 1) 1 0 "x"
      (fun _ => some 1) [("https://y", ([(1 : ℚ)]).sum / (([(1 : ℚ)]).length : ℚ))]
      (by decide) (by rfl)).2⟩

/-- A dead background task (after an uncaught exception) performs no
further refresh cycles: every subsequent scheduled cycle leaves the state
untouched. -/
theorem run_bg_cycles_dead (fs : List (Except Unit (List (String × ℚ))))
    (st : SchedState) (h : st.taskAlive = false) :
    run_bg_cycles st fs = st := by
  induction fs with
  | nil => rfl
  | cons f fs ih =>
      unfold run_bg_cycles
      rw [List.foldl_cons]
      have hc : run_bg_cycle st f = st := by
        unfold run_bg_cycle
        rw [h]
        simp
      rw [hc]
      exact ih

/-- C8 (counterexample): after a successful refresh #1 publishing
`https://a` and a failed Endpoint-Source fetch on refresh #2, the claim
says subsequent scheduled refreshes still occur; but a third, successful
cycle that would publish `https://b` changes nothing — the uncaught
exception killed the background task, so the cache still holds refresh
#1's ranking forever. -/
theorem run_bg_failure_kills_task_cex :
    (run_bg_cycles initState
      [.ok [("https://a", 1)], .error (), .ok [("https://b", 2)]]).best =
      .published [("https://a", 1)] ∧
    (run_bg_cycles initState
      [.ok [("https://a", 1)], .error (), .ok [("https://b", 2)]]).best ≠
      .published [("https://b", 2)] ∧
    (run_bg_cycles initState
      [.ok [("https://a", 1)], .error (), .ok [("https://b", 2)]]).taskAlive =
      false := by
  refine ⟨rfl, by decide, rfl⟩

/-- C8 (amended): if the Endpoint-Source fetch raises on the refresh
following a successful one, the cache file and `runner._best_servers`
still hold the previous ranking unchanged and request handlers are
unaffected (they serve refresh #1's data) — but the exception terminates
the background task, so no subsequent scheduled refresh ever runs
(`run_bg_cycles` of any further schedule is the identity). -/
theorem run_bg_failure_preserves_cache (st : SchedState) (r1 : List (String × ℚ))
    (fs : List (Except Unit (List (String × ℚ))))
    (halive : st.taskAlive = true) :
    (run_bg_cycle (run_bg_cycle st (.ok r1)) (.error ())).cacheFile = some r1 ∧
    (run_bg_cycle (run_bg_cycle st (.ok r1)) (.error ())).best = .published r1 ∧
    (run_bg_cycle (run_bg_cycle st (.ok r1)) (.error ())).taskAlive = false ∧
    run_bg_cycles (run_bg_cycle (run_bg_cycle st (.ok r1)) (.error ())) fs =
      run_bg_cycle (run_bg_cycle st (.ok r1)) (.error ()) ∧
    best_server (run_bg_cycle (run_bg_cycle st (.ok r1)) (.error ())).best =
      best_server (.published r1) := by
  have h1 : run_bg_cycle st (.ok r1) = ⟨some r1, .published r1, true⟩ := by
    unfold run_bg_cycle
    rw [halive]
    simp
  rw [h1]
  have h2 : run_bg_cycle (⟨some r1, .published r1, true⟩ : SchedState) (.error ()) =
      ⟨some r1, .published r1, false⟩ := by
    unfold run_bg_cycle
    simp
  rw [h2]
  exact ⟨rfl, rfl, rfl, run_bg_cycles_dead fs _ rfl, rfl⟩

theorem run_bg_failure_preserves_cache_witness :
    initState.taskAlive = true ∧
    (run_bg_cycle (run_bg_cycle initState (.ok [("https://a", 1)]))
      (.error ())).cacheFile = some [("https://a", 1)] ∧
    (run_bg_cycle (run_bg_cycle initState (.ok [("https://a", 1)]))
      (.error ())).best = .published [("https://a", 1)] ∧
    (run_bg_cycle (run_bg_cycle initState (.ok [("https://a", 1)]))
      (.error ())).taskAlive = false ∧
    run_bg_cycles (run_bg_cycle (run_bg_cycle initState (.ok [("https://a", 1)]))
      (.error ())) [.ok [("https://b", 2)]] =
      run_bg_cycle (run_bg_cycle initState (.ok [("https://a", 1)])) (.error ()) ∧
    best_server (run_bg_cycle (run_bg_cycle initState (.ok [("https://a", 1)]))
      (.error ())).best = best_server (.published [("https://a", 1)]) :=
  ⟨rfl,
    (run_bg_failure_preserves_cache initState [("https://a", 1)]
      [.ok [("https://b", 2)]] rfl).1,
    (run_bg_failure_preserves_cache initState [("https://a", 1)]
      [.ok [("https://b", 2)]] rfl).2.1,
    (run_bg_failure_preserves_cache initState [("https://a", 1)]
      [.ok [("https://b", 2)]] rfl).2.2.1,
    (run_bg_failure_preserves_cache initState [("https://a", 1)]
      [.ok [("https://b", 2)]] rfl).2.2.2.1,
    (run_bg_failure_preserves_cache initState [("https://a", 1)]
      [.ok [("https://b", 2)]] rfl).2.2.2.2⟩

/-- C10: a probe whose reported latency is exactly `0` is counted as a
failure — masking every zero-latency outcome to `None` changes nothing
(first conjunct); hence with (physically) nonnegative latencies every
latency entering a mean is strictly positive and every `measured` mean is
strictly positive (second conjunct); consequently every `mean_latency` in
a successfully published Ranking is strictly greater than zero (third
conjunct). -/
theorem measured_mean_positive :
    (∀ (skip_list : List String) (server : String) (pings : Nat → Option ℚ)
        (count max_retries : Nat),
      iter_ping skip_list server pings count max_retries =
        iter_ping skip_list server
          (fun k => if pings k = some 0 then none else pings k) count max_retries) ∧
    (∀ (skip_list : List String) (server : String) (pings : Nat → Option ℚ)
        (count max_retries : Nat) (m : ℚ) (s : String),
      (∀ k q, pings k = some q → 0 ≤ q) →
      (iter_ping skip_list server pings count max_retries).1 = .measured m s →
      0 < m) ∧
    (∀ (skip_list candidates : List String) (pingsFor : Nat → Nat → Option ℚ)
        (count max_retries : Nat) (ranking : List (String × ℚ)),
      (∀ i k q, pingsFor i k = some q → 0 ≤ q) →
      best_servers_core skip_list candidates pingsFor count max_retries =
        .ok ranking →
      ∀ p ∈ ranking, 0 < p.2) := by
  refine ⟨?_, ?_, ?_⟩
  · intro skip_list server pings count max_retries
    unfold iter_ping
    by_cases hmem : server ∈ skip_list
    · rw [if_pos hmem, if_pos hmem]
    · rw [if_neg hmem, if_neg hmem]
      exact iterPingGo_congr server pings _ max_retries
        (fun k => succVal_zero_mask (pings k)) count 0 0 []
  · intro skip_list server pings count max_retries m s hnn h
    unfold iter_ping at h
    by_cases hmem : server ∈ skip_list
    · rw [if_pos hmem] at h
      simp at h
    · rw [if_neg hmem] at h
      exact iterPingGo_measured_pos server pings max_retries hnn count 0 0 []
        (by intro q hq; simp at hq) m s h
  · intro skip_list candidates pingsFor count max_retries ranking hnn hok
    intro p hp
    unfold best_servers_core at hok
    by_cases hcrash : ((List.range candidates.length).map
        (fun i => (iter_ping skip_list (candidates.getD i "") (pingsFor i)
          count max_retries).1)).any (fun r => r = .statsError)
    · rw [if_pos hcrash] at hok
      exact absurd hok (by simp)
    · rw [if_neg hcrash] at hok
      rw [Except.ok.injEq] at hok
      rw [← hok] at hp
      rcases rank_val_mem _ _ hp with ⟨x, hx, hv⟩
      rcases List.mem_filterMap.mp hx with ⟨a, ha, hax⟩
      rcases List.mem_map.mp ha with ⟨r, hr, hra⟩
      rcases List.mem_map.mp hr with ⟨i, _, hri⟩
      simp only [id_eq] at hax
      rw [hax] at hra
      have hrm : r = .measured x.1 x.2 := by
        cases r with
        | noneResult => simp [toOpt] at hra
        | statsError => simp [toOpt] at hra
        | measured m s =>
            simp only [toOpt, Option.some.injEq] at hra
            rw [← hra]
      rw [← hri] at hrm
      unfold iter_ping at hrm
      by_cases hc : candidates.getD i "" ∈ skip_list
      · rw [if_pos hc] at hrm
        simp at hrm
      · rw [if_neg hc] at hrm
        rw [hv]
        exact iterPingGo_measured_pos (candidates.getD i "") (pingsFor i)
          max_retries (hnn i) count 0 0 [] (by intro q hq; simp at hq) x.1 x.2 hrm

theorem measured_mean_positive_witness :
    (iter_ping [] "a" (fun _ => some 1) 1 0).1 =
      .measured (([(1 : ℚ)]).sum / (([(1 : ℚ)]).length : ℚ)) "a" ∧
    (0 : ℚ) < ([(1 : ℚ)]).sum / (([(1 : ℚ)]).length : ℚ) ∧
    iter_ping [] "a" (fun _ => some 0) 1 1 =
      iter_ping [] "a"
        (fun k => if (fun _ : Nat => some (0 : ℚ)) k = some 0 then none
          else (fun _ : Nat => some (0 : ℚ)) k) 1 1 :=
  ⟨by rfl,
    measured_mean_positive.2.1 [] "a" (fun _ => some 1) 1 0
      (([(1 : ℚ)]).sum / (([(1 : ℚ)]).length : ℚ)) "a"
      (fun k q hq => by
        simp only [Option.some.injEq] at hq
        rw [← hq]
        norm_num)
      (by rfl),
    measured_mean_positive.1 [] "a" (fun _ => some 0) 1 1⟩

end BestInvidious
